import Mathlib

/-!
Shallow embedding of the godigraph package (digraph.go, adjacencyList.go).

A Go `Digraph` holds a map from vertices to adjacency lists, an edge
counter, a vertex counter and a root vertex.  The map is only ever read
by key lookup (never iterated), so it is embedded as an association
list; the caller-supplied `Vertex interface\x7b\x7d` identities become an
abstract type `V` with decidable equality.  Fallible operations return
the post state together with an optional error; a nil-pointer
dereference (calling Adjacent on a missing adjacency list) is embedded
as an explicit result constructor.
-/

namespace Godigraph

/-- Error values of the package: ErrCycle, ErrEdgeExists, ErrVertexExists,
ErrVertexNotExists from digraph.go. -/
inductive DigraphError
  | ErrCycle
  | ErrEdgeExists
  | ErrVertexExists
  | ErrVertexNotExists
deriving DecidableEq, Repr

/-- State of a Digraph: the adjacency-list map (as an association list, since
the Go map is only accessed by key), the edge counter, the root vertex
(Option, since the Go field starts as nil), and the vertex counter. -/
structure Digraph (V : Type) where
  adjList : List (V × List V)
  edgeCount : Nat
  root : Option V
  vertexCount : Nat
deriving DecidableEq, Repr

variable {V : Type} [DecidableEq V]

/-- New creates a Digraph with an empty adjacency map (digraph.go New). -/
def New : Digraph V := ⟨[], 0, none, 0⟩

/-- Map lookup `d.adjList[v]` on the association list: first matching key. -/
def lookupV : List (V × List V) → V → Option (List V)
  | [], _ => none
  | (k, l) :: rest, v => if k = v then some l else lookupV rest v

/-- Adjacency list of a vertex, defaulting to empty when the vertex is not a
key (used to state path existence; the code itself would nil-deref there). -/
def adjOf (g : List (V × List V)) (v : V) : List V := (lookupV g v).getD []

/-- All vertices appearing in some adjacency list (every edge target). -/
def allTargets (g : List (V × List V)) : List V := (g.map Prod.snd).flatten

/-- AddVertex from digraph.go: fails with ErrVertexExists if the key is
present; otherwise inserts an empty adjacency list, sets the root if this is
the first vertex, and increments the vertex counter. -/
def AddVertex (d : Digraph V) (vertex : V) : Digraph V × Option DigraphError :=
  if (lookupV d.adjList vertex).isSome then (d, some .ErrVertexExists)
  else
    ({ adjList := d.adjList ++ [(vertex, [])]
       edgeCount := d.edgeCount
       root := match d.root with
         | none => some vertex
         | some r => some r
       vertexCount := d.vertexCount + 1 }, none)

/-- HasEdge from digraph.go: false when source is unknown, otherwise whether
target occurs in the adjacency list of source (AdjacencyList.Search). -/
def HasEdge (d : Digraph V) (source target : V) : Bool :=
  match lookupV d.adjList source with
  | none => false
  | some adj => decide (target ∈ adj)

/-- Result of the recursive dfs: `nilDeref` embeds the nil-pointer
dereference Go performs when a visited vertex has no adjacency list;
`fuelOut` is an artifact of the fuel-indexed embedding and is proved
unreachable for the fuel used by DepthFirstSearch. -/
inductive DfsRes (V : Type)
  | nilDeref
  | fuelOut
  | ok (disc : List V)
deriving DecidableEq, Repr

mutual

/-- dfs from digraph.go, on one vertex: look up its adjacency list (nil
dereference when absent) and walk the adjacent vertices. -/
def dfsVisit (g : List (V × List V)) (n : Nat) (disc : List V) (u : V) :
    DfsRes V :=
  match n with
  | 0 => .fuelOut
  | n + 1 =>
    match lookupV g u with
    | none => .nilDeref
    | some adj => dfsFold g n disc adj

/-- dfs from digraph.go, the loop over adjacent vertices: an undiscovered
vertex is added to the discovered set and recursively visited. -/
def dfsFold (g : List (V × List V)) (n : Nat) (disc : List V) (l : List V) :
    DfsRes V :=
  match n with
  | 0 => .fuelOut
  | n + 1 =>
    match l with
    | [] => .ok disc
    | v :: vs =>
      if v ∈ disc then dfsFold g n disc vs
      else
        match dfsVisit g n (v :: disc) v with
        | .ok d2 => dfsFold g n d2 vs
        | r => r

end

/-- Fuel bookkeeping for the dfs embedding: total weight of the targets not
yet discovered. -/
def fuelE (g : List (V × List V)) (disc : List V) : Nat :=
  ((allTargets g).toFinset \ disc.toFinset).sum (fun v => 1 + (adjOf g v).length)

/-- Fuel used by DepthFirstSearch; proved sufficient (dfs never runs out). -/
def dfsFuel (g : List (V × List V)) (s : V) : Nat :=
  (adjOf g s).length + fuelE g [] + 2

/-- DepthFirstSearch from digraph.go: run dfs from source on a freshly
allocated discovered set, then report whether target was discovered.
`none` embeds the nil-pointer dereference on an unknown vertex. -/
def DepthFirstSearch (d : Digraph V) (source target : V) : Option Bool :=
  match dfsVisit d.adjList (dfsFuel d.adjList source) [] source with
  | .ok disc => some (decide (target ∈ disc))
  | _ => none

/-- Push target onto the back of the adjacency list of source
(`adjList.list.PushBack(target)` in AddEdge). The empty case is
unreachable from AddEdge, which has just ensured source is a key. -/
def updateList : List (V × List V) → V → V → List (V × List V)
  | [], _, _ => []
  | (k, l) :: rest, s, t =>
    if k = s then (k, l ++ [t]) :: rest else (k, l) :: updateList rest s t

/-- AddEdge from digraph.go, in source order: reject self loops with
ErrCycle, ensure both endpoints exist (ignoring errors), reject an existing
edge with ErrEdgeExists, reject with ErrCycle when source is reachable from
target, otherwise append the edge and increment the edge counter.  The outer
`none` propagates a dfs nil dereference. -/
def AddEdge (d : Digraph V) (source target : V) :
    Option (Digraph V × Option DigraphError) :=
  if source = target then some (d, some .ErrCycle)
  else
    let d1 := (AddVertex d source).1
    let d2 := (AddVertex d1 target).1
    if HasEdge d2 source target then some (d2, some .ErrEdgeExists)
    else
      match DepthFirstSearch d2 target source with
      | none => none
      | some true => some (d2, some .ErrCycle)
      | some false =>
        some ({ d2 with
                  adjList := updateList d2.adjList source target
                  edgeCount := d2.edgeCount + 1 }, none)

/-- EdgeCount from digraph.go. -/
def EdgeCount (d : Digraph V) : Nat := d.edgeCount

/-- VertexCount from digraph.go. -/
def VertexCount (d : Digraph V) : Nat := d.vertexCount

/-- Directed path of length at least one, following the adjacency lists. -/
inductive PathR (g : List (V × List V)) : V → V → Prop
  | edge {s t : V} : t ∈ adjOf g s → PathR g s t
  | cons {s u t : V} : u ∈ adjOf g s → PathR g u t → PathR g s t

/-- Closed graph: every vertex stored in some adjacency list is itself a key
of the map.  Every state reachable through the public API is closed. -/
def Closed (g : List (V × List V)) : Prop :=
  ∀ v ∈ allTargets g, (lookupV g v).isSome

instance (g : List (V × List V)) : Decidable (Closed g) := by
  unfold Closed; infer_instance

/-- Acyclicity: no vertex lies on a directed cycle. -/
def Acyclic (g : List (V × List V)) : Prop := ∀ v : V, ¬ PathR g v v

mutual

/-- printRecursive from digraph.go, on one vertex: emit the line for the
vertex, look up its adjacency list (nil dereference when absent, embedded as
`none`, which also covers fuel exhaustion), and recurse over the adjacent
vertices. -/
def printVisit [ToString V] (g : List (V × List V)) (n : Nat)
    (printed : List V) (vertex : V) (pre : String) (all : Bool) :
    Option (String × List V) :=
  match n with
  | 0 => none
  | n + 1 =>
    match lookupV g vertex with
    | none => none
    | some adjacent =>
      match printChildren g n printed adjacent pre all with
      | none => none
      | some (rest, printed2) =>
        some (pre ++ " - " ++ toString vertex ++ "\n" ++ rest, printed2)

/-- printRecursive from digraph.go, the loop over adjacent vertices: when
not printing all, an already printed vertex is skipped and a new one is
marked; the last sibling gets a space prefix, earlier siblings a pipe. -/
def printChildren [ToString V] (g : List (V × List V)) (n : Nat)
    (printed : List V) (l : List V) (pre : String) (all : Bool) :
    Option (String × List V) :=
  match n with
  | 0 => none
  | n + 1 =>
    match l with
    | [] => some ("", printed)
    | v :: vs =>
      if !all ∧ v ∈ printed then printChildren g n printed vs pre all
      else
        let printed1 := if all then printed else v :: printed
        let pre1 := if vs = [] then pre ++ "    " else pre ++ "   |"
        match printVisit g n printed1 v pre1 all with
        | none => none
        | some (str, printed2) =>
          match printChildren g n printed2 vs pre all with
          | none => none
          | some (rest, printed3) => some (str ++ rest, printed3)

end

/-- Fuel used by Print; the rendering value is not the subject of any claim,
so no sufficiency lemma is proved for it. -/
def printFuel (g : List (V × List V)) : Nat :=
  2 * ((allTargets g).length + g.length) + 2

/-- Print from digraph.go: fails with ErrVertexNotExists when the requested
root is not a key, otherwise renders the tree from it.  The inner Option
embeds nontermination or a nil dereference inside printRecursive, neither of
which occurs on states reachable through the public API. -/
def Print [ToString V] (d : Digraph V) (root : V) (all : Bool) :
    Except DigraphError (Option String) :=
  if (lookupV d.adjList root).isSome then
    .ok ((printVisit d.adjList (printFuel d.adjList) [] root "" all).map Prod.fst)
  else .error .ErrVertexNotExists

/-- String from digraph.go: Print from the recorded root without repeats,
mapping any error to the empty string.  A root that was never set is the Go
nil root, whose map lookup fails inside Print. -/
def Digraph.String [ToString V] (d : Digraph V) : String :=
  match d.root with
  | none => ""
  | some r =>
    match Print d r false with
    | .error _ => ""
    | .ok none => ""
    | .ok (some out) => out

/-! Basic lemmas about the association-list map. -/

theorem lookupV_append_of_some {l l2 : List (V × List V)} {x : V} {a : List V}
    (h : lookupV l x = some a) : lookupV (l ++ l2) x = some a := by
  induction l with
  | nil => simp [lookupV] at h
  | cons p rest ih =>
    obtain ⟨k, v⟩ := p
    by_cases hk : k = x <;> simp [lookupV, hk] at h ⊢ <;> simp_all

theorem lookupV_append_of_none {l : List (V × List V)} {x : V}
    (l2 : List (V × List V))
    (h : lookupV l x = none) : lookupV (l ++ l2) x = lookupV l2 x := by
  induction l with
  | nil => simp [lookupV]
  | cons p rest ih =>
    obtain ⟨k, v⟩ := p
    by_cases hk : k = x <;> simp [lookupV, hk] at h ⊢ <;> simp_all

theorem mem_allTargets_iff {g : List (V × List V)} {x : V} :
    x ∈ allTargets g ↔ ∃ p ∈ g, x ∈ p.2 := by
  simp only [allTargets, List.mem_flatten, List.mem_map]
  constructor
  · rintro ⟨l, ⟨p, hp, rfl⟩, hx⟩
    exact ⟨p, hp, hx⟩
  · rintro ⟨p, hp, hx⟩
    exact ⟨p.2, ⟨p, hp, rfl⟩, hx⟩

theorem lookupV_mem {g : List (V × List V)} {v : V} {a : List V}
    (h : lookupV g v = some a) : (v, a) ∈ g := by
  induction g with
  | nil => simp [lookupV] at h
  | cons p rest ih =>
    obtain ⟨k, l⟩ := p
    by_cases hk : k = v <;> simp [lookupV, hk] at h <;> simp_all

theorem mem_allTargets_of_adjOf {g : List (V × List V)} {v x : V}
    (h : x ∈ adjOf g v) : x ∈ allTargets g := by
  unfold adjOf at h
  cases hl : lookupV g v with
  | none => rw [hl] at h; simp at h
  | some a =>
    rw [hl] at h
    exact mem_allTargets_iff.mpr ⟨(v, a), lookupV_mem hl, h⟩

/-! Lemmas about AddVertex. -/

theorem AddVertex_lookup (d : Digraph V) (v x : V) :
    lookupV ((AddVertex d v).1).adjList x =
      match lookupV d.adjList x with
      | some a => some a
      | none => if v = x then some [] else none := by
  unfold AddVertex
  cases hv : lookupV d.adjList v with
  | some a =>
    simp [hv]
    cases hx : lookupV d.adjList x with
    | some b => simp
    | none =>
      have hne : v ≠ x := by
        rintro rfl
        rw [hv] at hx
        cases hx
      simp [hne]
  | none =>
    simp [hv]
    cases hx : lookupV d.adjList x with
    | some a => simpa using lookupV_append_of_some hx
    | none => simpa [lookupV] using lookupV_append_of_none [(v, [])] hx

theorem AddVertex_adjOf (d : Digraph V) (v x : V) :
    adjOf ((AddVertex d v).1).adjList x = adjOf d.adjList x := by
  unfold adjOf
  rw [AddVertex_lookup]
  cases hx : lookupV d.adjList x <;> simp
  split <;> simp

theorem AddVertex_lookup_self (d : Digraph V) (v : V) :
    (lookupV ((AddVertex d v).1).adjList v).isSome := by
  rw [AddVertex_lookup]
  cases hv : lookupV d.adjList v <;> simp

theorem AddVertex_lookup_mono {d : Digraph V} {x : V} (v : V)
    (h : (lookupV d.adjList x).isSome) :
    lookupV ((AddVertex d v).1).adjList x = lookupV d.adjList x := by
  rw [AddVertex_lookup]
  cases hx : lookupV d.adjList x <;> simp_all

theorem AddVertex_edgeCount (d : Digraph V) (v : V) :
    ((AddVertex d v).1).edgeCount = d.edgeCount := by
  unfold AddVertex
  split <;> simp

theorem AddVertex_allTargets (d : Digraph V) (v x : V) :
    (x ∈ allTargets ((AddVertex d v).1).adjList) ↔ x ∈ allTargets d.adjList := by
  unfold AddVertex
  split
  · simp
  · simp [allTargets]

theorem AddVertex_keeps_lookup {d : Digraph V} {x : V} (v : V)
    (h : (lookupV d.adjList x).isSome) :
    (lookupV ((AddVertex d v).1).adjList x).isSome := by
  rw [AddVertex_lookup_mono v h]; exact h

theorem AddVertex_Closed {d : Digraph V} (v : V) (h : Closed d.adjList) :
    Closed ((AddVertex d v).1).adjList := by
  intro x hx
  rw [AddVertex_allTargets] at hx
  exact AddVertex_keeps_lookup v (h x hx)

/-! Lemmas about updateList. -/

theorem lookupV_updateList_self (l : List (V × List V)) (s t : V) :
    lookupV (updateList l s t) s = (lookupV l s).map (· ++ [t]) := by
  induction l with
  | nil => simp [updateList, lookupV]
  | cons p rest ih =>
    obtain ⟨k, a⟩ := p
    by_cases hk : k = s <;> simp [updateList, lookupV, hk, ih]

theorem lookupV_updateList_ne (l : List (V × List V)) {s x : V} (t : V)
    (h : x ≠ s) : lookupV (updateList l s t) x = lookupV l x := by
  induction l with
  | nil => simp [updateList]
  | cons p rest ih =>
    obtain ⟨k, a⟩ := p
    by_cases hk : k = s
    · subst hk
      simp [updateList, lookupV, Ne.symm h]
    · by_cases hx : k = x <;> simp [updateList, lookupV, hk, hx, h, ih]

theorem mem_updateList {l : List (V × List V)} {s t : V}
    {p : V × List V} (h : p ∈ updateList l s t) :
    p ∈ l ∨ ∃ q ∈ l, p = (q.1, q.2 ++ [t]) := by
  induction l with
  | nil => simp [updateList] at h
  | cons q0 rest ih =>
    obtain ⟨k, a⟩ := q0
    by_cases hk : k = s
    · simp [updateList, hk] at h
      rcases h with h | h
      · exact Or.inr ⟨(k, a), by simp, by simp [h, hk]⟩
      · exact Or.inl (List.mem_cons_of_mem _ h)
    · simp only [updateList, if_neg hk, List.mem_cons] at h
      rcases h with h | h
      · exact Or.inl (by simp [h])
      · rcases ih h with h2 | ⟨q, hq, hpq⟩
        · exact Or.inl (List.mem_cons_of_mem _ h2)
        · exact Or.inr ⟨q, List.mem_cons_of_mem _ hq, hpq⟩

theorem updateList_mem {l : List (V × List V)} {s t : V}
    {q : V × List V} (h : q ∈ l) :
    q ∈ updateList l s t ∨ (q.1, q.2 ++ [t]) ∈ updateList l s t := by
  induction l with
  | nil => simp at h
  | cons q0 rest ih =>
    obtain ⟨k, a⟩ := q0
    rcases List.mem_cons.mp h with h | h
    · by_cases hk : k = s
      · subst h
        exact Or.inr (by simp [updateList, hk])
      · subst h
        exact Or.inl (by simp [updateList, hk])
    · by_cases hk : k = s
      · exact Or.inl (by simp [updateList, hk, h])
      · rcases ih h with h2 | h2
        · exact Or.inl (by simp [updateList, hk, h2])
        · exact Or.inr (by simp [updateList, hk, h2])

theorem mem_allTargets_updateList {l : List (V × List V)} {s t x : V}
    (h : x ∈ allTargets (updateList l s t)) : x ∈ allTargets l ∨ x = t := by
  rcases mem_allTargets_iff.mp h with ⟨p, hp, hx⟩
  rcases mem_updateList hp with h2 | ⟨q, hq, rfl⟩
  · exact Or.inl (mem_allTargets_iff.mpr ⟨p, h2, hx⟩)
  · simp at hx
    rcases hx with hx | hx
    · exact Or.inl (mem_allTargets_iff.mpr ⟨q, hq, hx⟩)
    · exact Or.inr hx

theorem mem_allTargets_updateList_of_mem {l : List (V × List V)} {s t x : V}
    (h : x ∈ allTargets l) : x ∈ allTargets (updateList l s t) := by
  rcases mem_allTargets_iff.mp h with ⟨q, hq, hx⟩
  rcases updateList_mem (s := s) (t := t) hq with h2 | h2
  · exact mem_allTargets_iff.mpr ⟨q, h2, hx⟩
  · exact mem_allTargets_iff.mpr ⟨(q.1, q.2 ++ [t]), h2, by simp [hx]⟩

/-! Lemmas about the recursive depth-first search. -/

theorem PathR_trans {g : List (V × List V)} {a b c : V}
    (h1 : PathR g a b) (h2 : PathR g b c) : PathR g a c := by
  induction h1 with
  | edge h => exact PathR.cons h h2
  | cons h _ ih => exact PathR.cons h (ih h2)

theorem PathR_congr {g g2 : List (V × List V)}
    (hadj : ∀ x, adjOf g2 x = adjOf g x) {a b : V}
    (h : PathR g a b) : PathR g2 a b := by
  induction h with
  | edge h => exact PathR.edge (by rw [hadj]; exact h)
  | cons h _ ih => exact PathR.cons (by rw [hadj]; exact h) ih

theorem dfsVisit_zero (g : List (V × List V)) (disc : List V) (u : V) :
    dfsVisit g 0 disc u = .fuelOut := by
  rw [dfsVisit.eq_def]

theorem dfsVisit_succ (g : List (V × List V)) (n : Nat) (disc : List V) (u : V) :
    dfsVisit g (n + 1) disc u =
      match lookupV g u with
      | none => .nilDeref
      | some adj => dfsFold g n disc adj := by
  rw [dfsVisit.eq_def]

theorem dfsFold_zero (g : List (V × List V)) (disc l : List V) :
    dfsFold g 0 disc l = .fuelOut := by
  rw [dfsFold.eq_def]

theorem dfsFold_nil (g : List (V × List V)) (n : Nat) (disc : List V) :
    dfsFold g (n + 1) disc [] = .ok disc := by
  rw [dfsFold.eq_def]

theorem dfsFold_cons (g : List (V × List V)) (n : Nat) (disc : List V)
    (v : V) (vs : List V) :
    dfsFold g (n + 1) disc (v :: vs) =
      if v ∈ disc then dfsFold g n disc vs
      else
        match dfsVisit g n (v :: disc) v with
        | .ok d2 => dfsFold g n d2 vs
        | r => r := by
  rw [dfsFold.eq_def]

theorem dfs_mono (g : List (V × List V)) :
    ∀ n : Nat,
      (∀ (disc : List V) (u : V) (disc2 : List V),
        dfsVisit g n disc u = .ok disc2 → disc ⊆ disc2) ∧
      (∀ (disc l disc2 : List V),
        dfsFold g n disc l = .ok disc2 → disc ⊆ disc2) := by
  intro n
  induction n with
  | zero =>
    constructor <;> intro disc <;> intro _ _ h <;>
      simp [dfsVisit_zero, dfsFold_zero] at h
  | succ n ih =>
    constructor
    · intro disc u disc2 h
      rw [dfsVisit_succ] at h
      cases hl : lookupV g u with
      | none => simp only [hl] at h; cases h
      | some adj =>
        simp only [hl] at h
        exact ih.2 disc adj disc2 h
    · intro disc l disc2 h
      cases l with
      | nil =>
        rw [dfsFold_nil] at h
        cases h
        exact fun x hx => hx
      | cons v vs =>
        rw [dfsFold_cons] at h
        by_cases hv : v ∈ disc
        · rw [if_pos hv] at h
          exact ih.2 disc vs disc2 h
        · rw [if_neg hv] at h
          cases hr : dfsVisit g n (v :: disc) v with
          | ok d2 =>
            simp only [hr] at h
            have h1 : (v :: disc) ⊆ d2 := ih.1 (v :: disc) v d2 hr
            have h2 : d2 ⊆ disc2 := ih.2 d2 vs disc2 h
            exact fun x hx => h2 (h1 (List.mem_cons_of_mem v hx))
          | nilDeref => simp only [hr] at h; cases h
          | fuelOut => simp only [hr] at h; cases h

theorem dfsVisit_mono {g : List (V × List V)} {n : Nat}
    {disc : List V} {u : V} {disc2 : List V}
    (h : dfsVisit g n disc u = .ok disc2) : disc ⊆ disc2 :=
  (dfs_mono g n).1 disc u disc2 h

theorem dfsFold_mono {g : List (V × List V)} {n : Nat}
    {disc l disc2 : List V}
    (h : dfsFold g n disc l = .ok disc2) : disc ⊆ disc2 :=
  (dfs_mono g n).2 disc l disc2 h

theorem dfs_sound (g : List (V × List V)) :
    ∀ n : Nat,
      (∀ (disc : List V) (u : V) (disc2 : List V),
        dfsVisit g n disc u = .ok disc2 →
          ∀ x ∈ disc2, x ∈ disc ∨ PathR g u x) ∧
      (∀ (a : V) (disc l disc2 : List V), (∀ v ∈ l, PathR g a v) →
        dfsFold g n disc l = .ok disc2 →
          ∀ x ∈ disc2, x ∈ disc ∨ PathR g a x) := by
  intro n
  induction n with
  | zero =>
    constructor
    · intro disc u disc2 h
      simp [dfsVisit_zero] at h
    · intro a disc l disc2 _ h
      simp [dfsFold_zero] at h
  | succ n ih =>
    constructor
    · intro disc u disc2 h
      rw [dfsVisit_succ] at h
      cases hl : lookupV g u with
      | none => simp only [hl] at h; cases h
      | some adj =>
        simp only [hl] at h
        have hadj : ∀ v ∈ adj, PathR g u v := by
          intro v hv
          exact PathR.edge (by simp [adjOf, hl]; exact hv)
        exact ih.2 u disc adj disc2 hadj h
    · intro a disc l disc2 hl h
      cases l with
      | nil =>
        rw [dfsFold_nil] at h
        cases h
        exact fun x hx => Or.inl hx
      | cons v vs =>
        rw [dfsFold_cons] at h
        by_cases hv : v ∈ disc
        · rw [if_pos hv] at h
          exact ih.2 a disc vs disc2 (fun w hw => hl w (List.mem_cons_of_mem v hw)) h
        · rw [if_neg hv] at h
          cases hr : dfsVisit g n (v :: disc) v with
          | ok d2 =>
            simp only [hr] at h
            intro x hx
            rcases ih.2 a d2 vs disc2
                (fun w hw => hl w (List.mem_cons_of_mem v hw)) h x hx with h2 | h2
            · rcases ih.1 (v :: disc) v d2 hr x h2 with h3 | h3
              · rcases List.mem_cons.mp h3 with rfl | h4
                · exact Or.inr (hl x (List.mem_cons_self x vs))
                · exact Or.inl h4
              · exact Or.inr (PathR_trans (hl v (List.mem_cons_self v vs)) h3)
            · exact Or.inr h2
          | nilDeref => simp only [hr] at h; cases h
          | fuelOut => simp only [hr] at h; cases h

theorem dfs_saturate (g : List (V × List V)) :
    ∀ n : Nat,
      (∀ (disc : List V) (u : V) (disc2 : List V),
        dfsVisit g n disc u = .ok disc2 →
          (∀ w ∈ adjOf g u, w ∈ disc2) ∧
          (∀ x ∈ disc2, x ∉ disc → ∀ w ∈ adjOf g x, w ∈ disc2)) ∧
      (∀ (disc l disc2 : List V),
        dfsFold g n disc l = .ok disc2 →
          (∀ v ∈ l, v ∈ disc2) ∧
          (∀ x ∈ disc2, x ∉ disc → ∀ w ∈ adjOf g x, w ∈ disc2)) := by
  intro n
  induction n with
  | zero =>
    constructor
    · intro disc u disc2 h
      simp [dfsVisit_zero] at h
    · intro disc l disc2 h
      simp [dfsFold_zero] at h
  | succ n ih =>
    constructor
    · intro disc u disc2 h
      rw [dfsVisit_succ] at h
      cases hl : lookupV g u with
      | none => simp only [hl] at h; cases h
      | some adj =>
        simp only [hl] at h
        have hf := ih.2 disc adj disc2 h
        exact ⟨by simpa [adjOf, hl] using hf.1, hf.2⟩
    · intro disc l disc2 h
      cases l with
      | nil =>
        rw [dfsFold_nil] at h
        cases h
        exact ⟨by simp, fun x _ hx2 => absurd (by assumption) hx2⟩
      | cons v vs =>
        rw [dfsFold_cons] at h
        by_cases hv : v ∈ disc
        · rw [if_pos hv] at h
          have hf := ih.2 disc vs disc2 h
          refine ⟨?_, hf.2⟩
          intro w hw
          rcases List.mem_cons.mp hw with rfl | hw2
          · exact dfsFold_mono h hv
          · exact hf.1 w hw2
        · rw [if_neg hv] at h
          cases hr : dfsVisit g n (v :: disc) v with
          | ok d2 =>
            simp only [hr] at h
            have hvis := ih.1 (v :: disc) v d2 hr
            have hf := ih.2 d2 vs disc2 h
            have hmono1 : (v :: disc) ⊆ d2 := dfsVisit_mono hr
            have hmono2 : d2 ⊆ disc2 := dfsFold_mono h
            constructor
            · intro w hw
              rcases List.mem_cons.mp hw with rfl | hw2
              · exact hmono2 (hmono1 (by simp))
              · exact hf.1 w hw2
            · intro x hx hxd w hw
              by_cases hx2 : x ∈ d2
              · by_cases hxv : x = v
                · subst hxv
                  exact hmono2 (hvis.1 w hw)
                · have hnotin : x ∉ v :: disc := by
                    intro hc
                    rcases List.mem_cons.mp hc with h3 | h3
                    · exact hxv h3
                    · exact hxd h3
                  exact hmono2 (hvis.2 x hx2 hnotin w hw)
              · exact hf.2 x hx hx2 w hw
          | nilDeref => simp only [hr] at h; cases h
          | fuelOut => simp only [hr] at h; cases h

theorem dfs_noNilDeref (g : List (V × List V)) (hC : Closed g) :
    ∀ n : Nat,
      (∀ (disc : List V) (u : V), (lookupV g u).isSome →
        dfsVisit g n disc u ≠ .nilDeref) ∧
      (∀ (disc l : List V), (∀ v ∈ l, v ∈ allTargets g) →
        dfsFold g n disc l ≠ .nilDeref) := by
  intro n
  induction n with
  | zero =>
    constructor
    · intro disc u _
      simp [dfsVisit_zero]
    · intro disc l _
      simp [dfsFold_zero]
  | succ n ih =>
    constructor
    · intro disc u hu
      rw [dfsVisit_succ]
      cases hl : lookupV g u with
      | none => rw [hl] at hu; cases hu
      | some adj =>
        have hmem : ∀ v ∈ adj, v ∈ allTargets g := by
          intro v hv
          have hv2 : v ∈ adjOf g u := by simp [adjOf, hl]; exact hv
          exact mem_allTargets_of_adjOf hv2
        simpa using ih.2 disc adj hmem
    · intro disc l hl
      cases l with
      | nil => simp [dfsFold_nil]
      | cons v vs =>
        rw [dfsFold_cons]
        by_cases hv : v ∈ disc
        · rw [if_pos hv]
          exact ih.2 disc vs (fun w hw => hl w (List.mem_cons_of_mem v hw))
        · rw [if_neg hv]
          cases hr : dfsVisit g n (v :: disc) v with
          | ok d2 =>
            simp only [hr]
            exact ih.2 d2 vs (fun w hw => hl w (List.mem_cons_of_mem v hw))
          | nilDeref =>
            exact absurd hr (ih.1 (v :: disc) v (hC v (hl v (List.mem_cons_self v vs))))
          | fuelOut =>
            simp only [hr]
            intro hc
            cases hc

theorem fuelE_anti {g : List (V × List V)} {disc d2 : List V}
    (h : disc ⊆ d2) : fuelE g d2 ≤ fuelE g disc := by
  unfold fuelE
  apply Finset.sum_le_sum_of_subset
  intro x hx
  simp only [Finset.mem_sdiff, List.mem_toFinset] at hx ⊢
  exact ⟨hx.1, fun hc => hx.2 (h hc)⟩

theorem fuelE_cons {g : List (V × List V)} {disc : List V} {v : V}
    (hv : v ∈ allTargets g) (hnd : v ∉ disc) :
    fuelE g disc = (1 + (adjOf g v).length) + fuelE g (v :: disc) := by
  unfold fuelE
  have hset : (allTargets g).toFinset \ (v :: disc).toFinset
      = ((allTargets g).toFinset \ disc.toFinset).erase v := by
    ext x
    simp only [Finset.mem_sdiff, Finset.mem_erase, List.mem_toFinset,
      List.mem_cons]
    tauto
  rw [hset]
  have hvS : v ∈ (allTargets g).toFinset \ disc.toFinset := by
    simp only [Finset.mem_sdiff, List.mem_toFinset]
    exact ⟨hv, hnd⟩
  rw [← Finset.add_sum_erase _ _ hvS]

theorem dfs_noFuelOut (g : List (V × List V)) :
    ∀ n : Nat,
      (∀ (disc : List V) (u : V),
        (adjOf g u).length + fuelE g disc + 2 ≤ n →
        dfsVisit g n disc u ≠ .fuelOut) ∧
      (∀ (disc l : List V), (∀ v ∈ l, v ∈ allTargets g) →
        l.length + fuelE g disc + 1 ≤ n →
        dfsFold g n disc l ≠ .fuelOut) := by
  intro n
  induction n with
  | zero =>
    constructor
    · intro disc u hb
      exact absurd hb (by omega)
    · intro disc l _ hb
      exact absurd hb (by omega)
  | succ n ih =>
    constructor
    · intro disc u hb
      rw [dfsVisit_succ]
      cases hl : lookupV g u with
      | none => simp
      | some adj =>
        simp only
        have hlen : (adjOf g u).length = adj.length := by simp [adjOf, hl]
        have hmem : ∀ v ∈ adj, v ∈ allTargets g := by
          intro v hv
          have hv2 : v ∈ adjOf g u := by simp [adjOf, hl]; exact hv
          exact mem_allTargets_of_adjOf hv2
        exact ih.2 disc adj hmem (by omega)
    · intro disc l hmem hb
      cases l with
      | nil =>
        rw [dfsFold_nil]
        simp
      | cons v vs =>
        simp only [List.length_cons] at hb
        rw [dfsFold_cons]
        by_cases hv : v ∈ disc
        · rw [if_pos hv]
          exact ih.2 disc vs (fun w hw => hmem w (List.mem_cons_of_mem v hw))
            (by omega)
        · rw [if_neg hv]
          have hcons := fuelE_cons (hmem v (List.mem_cons_self v vs)) hv
          have hvisit : dfsVisit g n (v :: disc) v ≠ .fuelOut := by
            apply ih.1
            omega
          cases hr : dfsVisit g n (v :: disc) v with
          | fuelOut => exact absurd hr hvisit
          | nilDeref =>
            simp only [hr]
            intro hc
            cases hc
          | ok d2 =>
            simp only [hr]
            have hsub : (v :: disc) ⊆ d2 := dfsVisit_mono hr
            have hanti : fuelE g d2 ≤ fuelE g (v :: disc) := fuelE_anti hsub
            exact ih.2 d2 vs (fun w hw => hmem w (List.mem_cons_of_mem v hw))
              (by omega)

theorem dfsVisit_run {g : List (V × List V)} {s : V} (hC : Closed g)
    (hs : (lookupV g s).isSome) :
    ∃ disc, dfsVisit g (dfsFuel g s) [] s = .ok disc := by
  cases hr : dfsVisit g (dfsFuel g s) [] s with
  | ok d => exact ⟨d, rfl⟩
  | nilDeref => exact absurd hr ((dfs_noNilDeref g hC (dfsFuel g s)).1 [] s hs)
  | fuelOut =>
    refine absurd hr ((dfs_noFuelOut g (dfsFuel g s)).1 [] s ?_)
    unfold dfsFuel
    omega

theorem PathR_mem_of_sat {g : List (V × List V)} {D : List V}
    (hsat : ∀ x ∈ D, ∀ w ∈ adjOf g x, w ∈ D) :
    ∀ {a b : V}, PathR g a b → (∀ w ∈ adjOf g a, w ∈ D) → b ∈ D := by
  intro a b hp
  induction hp with
  | edge h => exact fun ha => ha _ h
  | cons h _ ih => exact fun ha => ih (fun w hw => hsat _ (ha _ h) w hw)

theorem mem_dfs_iff {g : List (V × List V)} {n : Nat} {s : V} {D : List V}
    (h : dfsVisit g n [] s = .ok D) :
    ∀ x, x ∈ D ↔ PathR g s x := by
  intro x
  constructor
  · intro hx
    rcases (dfs_sound g n).1 [] s D h x hx with h2 | h2
    · simp at h2
    · exact h2
  · intro hp
    have hsat := (dfs_saturate g n).1 [] s D h
    exact PathR_mem_of_sat (fun y hy => hsat.2 y hy (by simp)) hp hsat.1

theorem DepthFirstSearch_ok {d : Digraph V} {s : V} (hC : Closed d.adjList)
    (hs : (lookupV d.adjList s).isSome) (t : V) :
    ∃ b, DepthFirstSearch d s t = some b ∧ (b = true ↔ PathR d.adjList s t) := by
  obtain ⟨D, hD⟩ := dfsVisit_run hC hs
  refine ⟨decide (t ∈ D), by simp [DepthFirstSearch, hD], ?_⟩
  rw [decide_eq_true_iff]
  exact mem_dfs_iff hD t

theorem DepthFirstSearch_none {d : Digraph V} {s : V} (t : V)
    (hs : lookupV d.adjList s = none) :
    dfsVisit d.adjList (dfsFuel d.adjList s) [] s = .nilDeref ∧
      DepthFirstSearch d s t = none := by
  have hfuel : dfsFuel d.adjList s = (dfsFuel d.adjList s - 1) + 1 := by
    unfold dfsFuel
    omega
  have hvis : dfsVisit d.adjList (dfsFuel d.adjList s) [] s = .nilDeref := by
    rw [hfuel, dfsVisit_succ, hs]
  exact ⟨hvis, by simp [DepthFirstSearch, hvis]⟩

theorem DepthFirstSearch_true_path {d : Digraph V} {s t : V}
    (h : DepthFirstSearch d s t = some true) : PathR d.adjList s t := by
  unfold DepthFirstSearch at h
  cases hr : dfsVisit d.adjList (dfsFuel d.adjList s) [] s with
  | ok D =>
    rw [hr] at h
    simp at h
    exact (mem_dfs_iff hr t).mp h
  | nilDeref => rw [hr] at h; cases h
  | fuelOut => rw [hr] at h; cases h

/-! Behavior of AddEdge, case by case. -/

/-- Abbreviation for the state after the two AddVertex calls at the start of
AddEdge. -/
def ensureVertices (d : Digraph V) (s t : V) : Digraph V :=
  (AddVertex (AddVertex d s).1 t).1

theorem AddVertex_noop {d : Digraph V} {v : V}
    (h : (lookupV d.adjList v).isSome) : (AddVertex d v).1 = d := by
  unfold AddVertex
  rw [if_pos h]

theorem PathR_target_mem {g : List (V × List V)} {a b : V}
    (h : PathR g a b) : b ∈ allTargets g := by
  induction h with
  | edge h => exact mem_allTargets_of_adjOf h
  | cons _ _ ih => exact ih

theorem PathR_source_lookup {g : List (V × List V)} {a b : V}
    (h : PathR g a b) : (lookupV g a).isSome := by
  have hmem : ∃ w, w ∈ adjOf g a := by
    cases h with
    | edge h2 => exact ⟨b, h2⟩
    | cons h2 _ => exact ⟨_, h2⟩
  obtain ⟨w, hw⟩ := hmem
  unfold adjOf at hw
  cases hl : lookupV g a with
  | none => rw [hl] at hw; simp at hw
  | some _ => simp

theorem Acyclic_congr {g g2 : List (V × List V)}
    (hadj : ∀ x, adjOf g2 x = adjOf g x) (h : Acyclic g) : Acyclic g2 :=
  fun v hp => h v (PathR_congr (fun x => (hadj x).symm) hp)

theorem ensureVertices_adjOf (d : Digraph V) (s t x : V) :
    adjOf (ensureVertices d s t).adjList x = adjOf d.adjList x := by
  unfold ensureVertices
  rw [AddVertex_adjOf, AddVertex_adjOf]

theorem ensureVertices_edgeCount (d : Digraph V) (s t : V) :
    (ensureVertices d s t).edgeCount = d.edgeCount := by
  unfold ensureVertices
  rw [AddVertex_edgeCount, AddVertex_edgeCount]

theorem ensureVertices_lookup_s (d : Digraph V) (s t : V) :
    lookupV (ensureVertices d s t).adjList s = some (adjOf d.adjList s) := by
  unfold ensureVertices
  cases hls : lookupV d.adjList s with
  | some a =>
    have h1 : lookupV ((AddVertex d s).1).adjList s = some a := by
      rw [AddVertex_lookup_mono s (by simp [hls])]
      exact hls
    rw [AddVertex_lookup_mono t (by simp [h1]), h1]
    simp [adjOf, hls]
  | none =>
    have h1 : lookupV ((AddVertex d s).1).adjList s = some [] := by
      rw [AddVertex_lookup]
      simp [hls]
    rw [AddVertex_lookup_mono t (by simp [h1]), h1]
    simp [adjOf, hls]

theorem ensureVertices_lookup_t (d : Digraph V) (s t : V) :
    (lookupV (ensureVertices d s t).adjList t).isSome := by
  unfold ensureVertices
  exact AddVertex_lookup_self _ t

theorem ensureVertices_Closed {d : Digraph V} (s t : V)
    (h : Closed d.adjList) : Closed (ensureVertices d s t).adjList :=
  AddVertex_Closed t (AddVertex_Closed s h)

theorem ensureVertices_allTargets (d : Digraph V) (s t x : V) :
    x ∈ allTargets (ensureVertices d s t).adjList ↔ x ∈ allTargets d.adjList := by
  unfold ensureVertices
  rw [AddVertex_allTargets, AddVertex_allTargets]

theorem HasEdge_ensureVertices (d : Digraph V) (s t : V) :
    HasEdge (ensureVertices d s t) s t = HasEdge d s t := by
  unfold HasEdge
  rw [ensureVertices_lookup_s]
  cases hls : lookupV d.adjList s with
  | some a => simp [adjOf, hls]
  | none => simp [adjOf, hls]

theorem ensureVertices_noop {d : Digraph V} {s t : V}
    (hs : (lookupV d.adjList s).isSome) (ht : (lookupV d.adjList t).isSome) :
    ensureVertices d s t = d := by
  unfold ensureVertices
  rw [AddVertex_noop hs, AddVertex_noop ht]

theorem AddEdge_self (d : Digraph V) (v : V) :
    AddEdge d v v = some (d, some .ErrCycle) := by
  simp [AddEdge]

theorem AddEdge_edgeExists {d : Digraph V} {s t : V} (hC : Closed d.adjList)
    (hst : s ≠ t) (hHE : HasEdge d s t = true) :
    AddEdge d s t = some (d, some .ErrEdgeExists) := by
  have hls : (lookupV d.adjList s).isSome := by
    unfold HasEdge at hHE
    cases hl : lookupV d.adjList s with
    | none => rw [hl] at hHE; cases hHE
    | some a => simp
  have hlt : (lookupV d.adjList t).isSome := by
    unfold HasEdge at hHE
    cases hl : lookupV d.adjList s with
    | none => rw [hl] at hHE; cases hHE
    | some a =>
      rw [hl] at hHE
      have ht : t ∈ a := by simpa using hHE
      exact hC t (mem_allTargets_iff.mpr ⟨(s, a), lookupV_mem hl, ht⟩)
  have hnoop : ensureVertices d s t = d := ensureVertices_noop hls hlt
  simp only [AddEdge, if_neg hst]
  rw [show (AddVertex (AddVertex d s).1 t).1 = d from hnoop]
  rw [hHE]
  simp

theorem AddEdge_cycle {d : Digraph V} {s t : V} (hC : Closed d.adjList)
    (hst : s ≠ t) (hHE : HasEdge d s t = false)
    (hDFS : DepthFirstSearch (ensureVertices d s t) t s = some true) :
    AddEdge d s t = some (d, some .ErrCycle) := by
  have hpath2 : PathR (ensureVertices d s t).adjList t s :=
    DepthFirstSearch_true_path (d := ensureVertices d s t) hDFS
  have hpath : PathR d.adjList t s :=
    PathR_congr (fun x => (ensureVertices_adjOf d s t x).symm) hpath2
  have hlt : (lookupV d.adjList t).isSome := PathR_source_lookup hpath
  have hls : (lookupV d.adjList s).isSome := hC s (PathR_target_mem hpath)
  have hnoop : ensureVertices d s t = d := ensureVertices_noop hls hlt
  rw [hnoop] at hDFS
  simp only [AddEdge, if_neg hst]
  rw [show (AddVertex (AddVertex d s).1 t).1 = d from hnoop]
  rw [hHE]
  simp [hDFS]

theorem AddEdge_success {d : Digraph V} {s t : V} (hst : s ≠ t)
    (hHE : HasEdge d s t = false)
    (hDFS : DepthFirstSearch (ensureVertices d s t) t s = some false) :
    AddEdge d s t = some ({ ensureVertices d s t with
        adjList := updateList (ensureVertices d s t).adjList s t
        edgeCount := (ensureVertices d s t).edgeCount + 1 }, none) := by
  have hHE2 : HasEdge (ensureVertices d s t) s t = false := by
    rw [HasEdge_ensureVertices]
    exact hHE
  simp only [AddEdge, if_neg hst]
  rw [show HasEdge (AddVertex (AddVertex d s).1 t).1 s t = false from hHE2]
  simp only [Bool.false_eq_true, if_false]
  rw [show DepthFirstSearch (AddVertex (AddVertex d s).1 t).1 t s = some false from hDFS]
  rfl

/-! Preservation of the closedness and acyclicity invariants. -/

theorem lookupV_updateList_isSome {l : List (V × List V)} {s t x : V}
    (h : (lookupV l x).isSome) : (lookupV (updateList l s t) x).isSome := by
  by_cases hx : x = s
  · subst hx
    rw [lookupV_updateList_self]
    cases hl : lookupV l x with
    | none => rw [hl] at h; cases h
    | some a => simp
  · rw [lookupV_updateList_ne _ t hx]
    exact h

theorem adjOf_updateList_self {l : List (V × List V)} {s : V} (t : V)
    (hS : (lookupV l s).isSome) :
    adjOf (updateList l s t) s = adjOf l s ++ [t] := by
  unfold adjOf
  rw [lookupV_updateList_self]
  cases hl : lookupV l s with
  | none => rw [hl] at hS; cases hS
  | some a => simp

theorem adjOf_updateList_ne (l : List (V × List V)) {s x : V} (t : V)
    (hx : x ≠ s) : adjOf (updateList l s t) x = adjOf l x := by
  unfold adjOf
  rw [lookupV_updateList_ne _ t hx]

theorem PathR_update_decomp {g g2 : List (V × List V)} {s t : V}
    (hs : adjOf g2 s = adjOf g s ++ [t])
    (hne : ∀ x, x ≠ s → adjOf g2 x = adjOf g x) :
    ∀ {a b : V}, PathR g2 a b →
      PathR g a b ∨ ((PathR g a s ∨ a = s) ∧ (PathR g t b ∨ t = b)) := by
  intro a b hp
  induction hp with
  | edge h =>
    rename_i a2 b2
    by_cases has : a2 = s
    · subst has
      rw [hs] at h
      rcases List.mem_append.mp h with h2 | h2
      · exact Or.inl (PathR.edge h2)
      · simp at h2
        exact Or.inr ⟨Or.inr rfl, Or.inr h2.symm⟩
    · rw [hne a2 has] at h
      exact Or.inl (PathR.edge h)
  | cons h p ih =>
    rename_i a2 u b2
    by_cases has : a2 = s
    · subst has
      rw [hs] at h
      rcases List.mem_append.mp h with h2 | h2
      · rcases ih with h3 | ⟨_, h5⟩
        · exact Or.inl (PathR.cons h2 h3)
        · exact Or.inr ⟨Or.inr rfl, h5⟩
      · simp at h2
        subst h2
        rcases ih with h3 | ⟨_, h5⟩
        · exact Or.inr ⟨Or.inr rfl, Or.inl h3⟩
        · exact Or.inr ⟨Or.inr rfl, h5⟩
    · rw [hne a2 has] at h
      rcases ih with h3 | ⟨h4, h5⟩
      · exact Or.inl (PathR.cons h h3)
      · refine Or.inr ⟨?_, h5⟩
        rcases h4 with h6 | rfl
        · exact Or.inl (PathR.cons h h6)
        · exact Or.inl (PathR.edge h)

theorem Acyclic_update {g : List (V × List V)} {s t : V}
    (hst : s ≠ t) (hA : Acyclic g) (hnp : ¬ PathR g t s)
    {g2 : List (V × List V)}
    (hs : adjOf g2 s = adjOf g s ++ [t])
    (hne : ∀ x, x ≠ s → adjOf g2 x = adjOf g x) : Acyclic g2 := by
  intro v hp
  rcases PathR_update_decomp hs hne hp with h | ⟨h1, h2⟩
  · exact hA v h
  · rcases h1 with h1 | h1 <;> rcases h2 with h2 | h2
    · exact hnp (PathR_trans h2 h1)
    · exact hnp (h2 ▸ h1)
    · exact hnp (h1 ▸ h2)
    · exact hst (h2.trans h1).symm

theorem AddEdge_preserves {d : Digraph V} {s t : V} {d2 : Digraph V}
    {e : Option DigraphError}
    (hC : Closed d.adjList) (hA : Acyclic d.adjList)
    (h : AddEdge d s t = some (d2, e)) :
    Closed d2.adjList ∧ Acyclic d2.adjList := by
  by_cases hst : s = t
  · subst hst
    rw [AddEdge_self] at h
    simp only [Option.some.injEq, Prod.mk.injEq] at h
    obtain ⟨rfl, rfl⟩ := h
    exact ⟨hC, hA⟩
  · cases hHE : HasEdge d s t with
    | true =>
      rw [AddEdge_edgeExists hC hst hHE] at h
      simp only [Option.some.injEq, Prod.mk.injEq] at h
      obtain ⟨rfl, rfl⟩ := h
      exact ⟨hC, hA⟩
    | false =>
      have hCg2 : Closed (ensureVertices d s t).adjList :=
        ensureVertices_Closed s t hC
      have hlt : (lookupV (ensureVertices d s t).adjList t).isSome :=
        ensureVertices_lookup_t d s t
      obtain ⟨b, hb, hbiff⟩ := DepthFirstSearch_ok hCg2 hlt s
      cases b with
      | true =>
        rw [AddEdge_cycle hC hst hHE hb] at h
        simp only [Option.some.injEq, Prod.mk.injEq] at h
        obtain ⟨rfl, rfl⟩ := h
        exact ⟨hC, hA⟩
      | false =>
        rw [AddEdge_success hst hHE hb] at h
        simp only [Option.some.injEq, Prod.mk.injEq] at h
        obtain ⟨rfl, rfl⟩ := h
        have hAg2 : Acyclic (ensureVertices d s t).adjList :=
          Acyclic_congr (ensureVertices_adjOf d s t) hA
        have hnp : ¬ PathR (ensureVertices d s t).adjList t s := by
          intro hp
          exact absurd (hbiff.mpr hp) (by simp)
        have hS : (lookupV (ensureVertices d s t).adjList s).isSome := by
          rw [ensureVertices_lookup_s]
          simp
        constructor
        · intro v hv
          rcases mem_allTargets_updateList hv with h2 | rfl
          · exact lookupV_updateList_isSome (hCg2 v h2)
          · exact lookupV_updateList_isSome hlt
        · exact Acyclic_update hst hAg2 hnp (adjOf_updateList_self t hS)
            (fun x hx => adjOf_updateList_ne _ t hx)

/-- Graph states reachable from a fresh graph through any sequence of
AddVertex and AddEdge calls, successful or failed. -/
inductive Reached : Digraph V → Prop
  | init : Reached New
  | addV (g : Digraph V) (v : V) : Reached g → Reached (AddVertex g v).1
  | addE (g : Digraph V) (s t : V) (g2 : Digraph V) (e : Option DigraphError) :
      Reached g → AddEdge g s t = some (g2, e) → Reached g2

theorem PathR_nil {a b : V} (h : PathR ([] : List (V × List V)) a b) : False := by
  cases h with
  | edge h2 => simp [adjOf, lookupV] at h2
  | cons h2 _ => simp [adjOf, lookupV] at h2

theorem Reached_invariant {g : Digraph V} (h : Reached g) :
    Closed g.adjList ∧ Acyclic g.adjList := by
  induction h with
  | init =>
    constructor
    · intro v hv
      simp [New, allTargets] at hv
    · intro v hp
      exact PathR_nil hp
  | addV g v _ ih =>
    exact ⟨AddVertex_Closed v ih.1,
      Acyclic_congr (AddVertex_adjOf g v) ih.2⟩
  | addE g s t g2 e _ he ih =>
    exact AddEdge_preserves ih.1 ih.2 he

/-! Counter bookkeeping: vertex counter versus keys, edge counter versus
stored edges. -/

/-- Keys of the adjacency map: the vertex set of the graph. -/
def keysList (g : List (V × List V)) : List V := g.map Prod.fst

/-- Total number of edges stored across all adjacency lists. -/
def totalEdges (g : List (V × List V)) : Nat :=
  (g.map (fun p => p.2.length)).sum

theorem lookupV_isSome_iff_mem_keys {g : List (V × List V)} {x : V} :
    (lookupV g x).isSome ↔ x ∈ keysList g := by
  induction g with
  | nil => simp [lookupV, keysList]
  | cons p rest ih =>
    obtain ⟨k, a⟩ := p
    by_cases hk : k = x
    · subst hk
      simp [lookupV, keysList]
    · simp only [lookupV, if_neg hk, keysList, List.map_cons, List.mem_cons]
      rw [show (rest.map Prod.fst) = keysList rest from rfl, ← ih]
      constructor
      · exact fun h2 => Or.inr h2
      · rintro (h2 | h2)
        · exact absurd h2.symm hk
        · exact h2

theorem AddEdge_cases {d : Digraph V} {s t : V} {d2 : Digraph V}
    {e : Option DigraphError}
    (h : AddEdge d s t = some (d2, e)) :
    (s = t ∧ d2 = d ∧ e = some .ErrCycle) ∨
    (s ≠ t ∧ d2 = ensureVertices d s t ∧
      (e = some .ErrEdgeExists ∨ e = some .ErrCycle)) ∨
    (s ≠ t ∧ d2 = { ensureVertices d s t with
        adjList := updateList (ensureVertices d s t).adjList s t
        edgeCount := (ensureVertices d s t).edgeCount + 1 } ∧ e = none) := by
  unfold ensureVertices
  by_cases hst : s = t
  · subst hst
    rw [AddEdge_self] at h
    simp only [Option.some.injEq, Prod.mk.injEq] at h
    exact Or.inl ⟨rfl, h.1.symm, h.2.symm⟩
  · simp only [AddEdge, if_neg hst] at h
    cases hHE : HasEdge (AddVertex (AddVertex d s).1 t).1 s t with
    | true =>
      rw [hHE] at h
      simp only [if_true] at h
      simp only [Option.some.injEq, Prod.mk.injEq] at h
      exact Or.inr (Or.inl ⟨hst, h.1.symm, Or.inl h.2.symm⟩)
    | false =>
      rw [hHE] at h
      simp only [Bool.false_eq_true, if_false] at h
      cases hDFS : DepthFirstSearch (AddVertex (AddVertex d s).1 t).1 t s with
      | none => rw [hDFS] at h; cases h
      | some b =>
        cases b with
        | true =>
          rw [hDFS] at h
          simp only [Option.some.injEq, Prod.mk.injEq] at h
          exact Or.inr (Or.inl ⟨hst, h.1.symm, Or.inr h.2.symm⟩)
        | false =>
          rw [hDFS] at h
          simp only [Option.some.injEq, Prod.mk.injEq] at h
          exact Or.inr (Or.inr ⟨hst, h.1.symm, h.2.symm⟩)

theorem AddVertex_keysFinset (d : Digraph V) (v : V) :
    (keysList ((AddVertex d v).1).adjList).toFinset =
      insert v (keysList d.adjList).toFinset := by
  unfold AddVertex
  cases hv : lookupV d.adjList v with
  | some a =>
    have hmem : v ∈ keysList d.adjList :=
      lookupV_isSome_iff_mem_keys.mp (by simp [hv])
    simp only [hv, Option.isSome_some, if_true]
    ext x
    simp only [List.mem_toFinset, Finset.mem_insert]
    constructor
    · exact fun h2 => Or.inr h2
    · rintro (rfl | h2)
      · exact hmem
      · exact h2
  | none =>
    simp only [hv, Option.isSome_none, Bool.false_eq_true, if_false]
    ext x
    simp [keysList]
    tauto

theorem AddVertex_vertexCount_inv {d : Digraph V}
    (hI : d.vertexCount = (keysList d.adjList).toFinset.card) (v : V) :
    ((AddVertex d v).1).vertexCount =
      (keysList ((AddVertex d v).1).adjList).toFinset.card := by
  rw [AddVertex_keysFinset]
  unfold AddVertex
  cases hv : lookupV d.adjList v with
  | some a =>
    have hmem : v ∈ (keysList d.adjList).toFinset :=
      List.mem_toFinset.mpr (lookupV_isSome_iff_mem_keys.mp (by simp [hv]))
    simp only [hv, Option.isSome_some, if_true]
    rw [Finset.insert_eq_self.mpr hmem]
    exact hI
  | none =>
    have hmem : v ∉ (keysList d.adjList).toFinset := by
      simp only [List.mem_toFinset]
      intro hc
      rw [← lookupV_isSome_iff_mem_keys, hv] at hc
      cases hc
    simp only [hv, Option.isSome_none, Bool.false_eq_true, if_false]
    rw [Finset.card_insert_of_not_mem hmem]
    simp [hI]

theorem AddVertex_totalEdges (d : Digraph V) (v : V) :
    totalEdges ((AddVertex d v).1).adjList = totalEdges d.adjList := by
  unfold AddVertex
  cases hv : lookupV d.adjList v <;> simp [totalEdges]

theorem keysList_updateList (l : List (V × List V)) (s t : V) :
    keysList (updateList l s t) = keysList l := by
  induction l with
  | nil => simp [updateList, keysList]
  | cons p rest ih =>
    obtain ⟨k, a⟩ := p
    by_cases hk : k = s <;> simp [updateList, keysList, hk] at ih ⊢ <;>
      simp [ih]

theorem updateList_totalEdges {l : List (V × List V)} {s : V} (t : V)
    (hS : (lookupV l s).isSome) :
    totalEdges (updateList l s t) = totalEdges l + 1 := by
  induction l with
  | nil => simp [lookupV] at hS
  | cons p rest ih =>
    obtain ⟨k, a⟩ := p
    by_cases hk : k = s
    · simp [updateList, hk, totalEdges]
      omega
    · have hS2 : (lookupV rest s).isSome := by
        simpa [lookupV, hk] using hS
      simp [updateList, hk, totalEdges] at ih ⊢
      rw [ih hS2]
      omega

theorem ensureVertices_keysFinset (d : Digraph V) (s t : V) :
    (keysList (ensureVertices d s t).adjList).toFinset =
      insert t (insert s (keysList d.adjList).toFinset) := by
  unfold ensureVertices
  rw [AddVertex_keysFinset, AddVertex_keysFinset]

theorem ensureVertices_vertexCount_inv {d : Digraph V}
    (hI : d.vertexCount = (keysList d.adjList).toFinset.card) (s t : V) :
    (ensureVertices d s t).vertexCount =
      (keysList (ensureVertices d s t).adjList).toFinset.card :=
  AddVertex_vertexCount_inv (AddVertex_vertexCount_inv hI s) t

theorem ensureVertices_totalEdges (d : Digraph V) (s t : V) :
    totalEdges (ensureVertices d s t).adjList = totalEdges d.adjList := by
  unfold ensureVertices
  rw [AddVertex_totalEdges, AddVertex_totalEdges]

theorem AddEdge_counts {d : Digraph V} {s t : V} {d2 : Digraph V}
    {e : Option DigraphError}
    (h : AddEdge d s t = some (d2, e)) :
    d2.edgeCount = d.edgeCount + (if e = none then 1 else 0) ∧
    totalEdges d2.adjList = totalEdges d.adjList + (if e = none then 1 else 0) := by
  rcases AddEdge_cases h with ⟨_, rfl, rfl⟩ | ⟨_, rfl, he⟩ | ⟨hst, rfl, rfl⟩
  · simp
  · rcases he with rfl | rfl <;>
      simp [ensureVertices_edgeCount, ensureVertices_totalEdges]
  · have hS : (lookupV (ensureVertices d s t).adjList s).isSome := by
      rw [ensureVertices_lookup_s]
      simp
    constructor
    · simp [ensureVertices_edgeCount]
    · show totalEdges (updateList (ensureVertices d s t).adjList s t) = _
      rw [updateList_totalEdges t hS, ensureVertices_totalEdges]
      simp

theorem AddEdge_keysFinset {d : Digraph V} {s t : V} {d2 : Digraph V}
    {e : Option DigraphError}
    (h : AddEdge d s t = some (d2, e)) :
    (keysList d2.adjList).toFinset =
      if s = t then (keysList d.adjList).toFinset
      else insert t (insert s (keysList d.adjList).toFinset) := by
  rcases AddEdge_cases h with ⟨hst, rfl, _⟩ | ⟨hst, rfl, _⟩ | ⟨hst, rfl, _⟩
  · rw [if_pos hst]
  · rw [if_neg hst, ensureVertices_keysFinset]
  · rw [if_neg hst]
    show (keysList (updateList (ensureVertices d s t).adjList s t)).toFinset = _
    rw [keysList_updateList, ensureVertices_keysFinset]

theorem AddEdge_vertexCount_inv {d : Digraph V} {s t : V} {d2 : Digraph V}
    {e : Option DigraphError}
    (hI : d.vertexCount = (keysList d.adjList).toFinset.card)
    (h : AddEdge d s t = some (d2, e)) :
    d2.vertexCount = (keysList d2.adjList).toFinset.card := by
  rcases AddEdge_cases h with ⟨_, rfl, _⟩ | ⟨_, rfl, _⟩ | ⟨_, rfl, _⟩
  · exact hI
  · exact ensureVertices_vertexCount_inv hI s t
  · show (ensureVertices d s t).vertexCount = _
    rw [show keysList (updateList (ensureVertices d s t).adjList s t)
        = keysList (ensureVertices d s t).adjList from keysList_updateList _ s t]
    exact ensureVertices_vertexCount_inv hI s t

/-! Traces of public mutating calls. -/

/-- One public mutating call: AddVertex or AddEdge. -/
inductive Op (V : Type)
  | addV (v : V)
  | addE (s t : V)
deriving DecidableEq, Repr

/-- Run a sequence of calls from a state, also counting the AddEdge calls
that returned success (a nil error).  `none` propagates the embedded nil
dereference, which never occurs from a fresh graph. -/
def runOps : Digraph V → List (Op V) → Option (Digraph V × Nat)
  | d, [] => some (d, 0)
  | d, .addV v :: rest => runOps (AddVertex d v).1 rest
  | d, .addE s t :: rest =>
    match AddEdge d s t with
    | none => none
    | some (d2, e) =>
      match runOps d2 rest with
      | none => none
      | some (dF, n) => some (dF, (if e = none then 1 else 0) + n)

/-- Identities passed to the calls of a trace, as the spec counts them:
every AddVertex argument and both endpoints of every AddEdge call. -/
def identsClaimed : List (Op V) → List V
  | [] => []
  | .addV v :: rest => v :: identsClaimed rest
  | .addE s t :: rest => s :: t :: identsClaimed rest

/-- Identities that actually create vertices: every AddVertex argument and
both endpoints of every AddEdge call whose endpoints differ (a self-loop
call returns before inserting anything). -/
def identsOf : List (Op V) → List V
  | [] => []
  | .addV v :: rest => v :: identsOf rest
  | .addE s t :: rest =>
    if s = t then identsOf rest else s :: t :: identsOf rest

theorem runOps_Reached {ops : List (Op V)} :
    ∀ {d dF : Digraph V} {n : Nat}, Reached d →
      runOps d ops = some (dF, n) → Reached dF := by
  induction ops with
  | nil =>
    intro d dF n hR h
    simp only [runOps, Option.some.injEq, Prod.mk.injEq] at h
    exact h.1 ▸ hR
  | cons op rest ih =>
    intro d dF n hR h
    cases op with
    | addV v => exact ih (Reached.addV d v hR) h
    | addE s t =>
      simp only [runOps] at h
      cases hE : AddEdge d s t with
      | none => simp only [hE] at h; cases h
      | some p =>
        obtain ⟨d2, e⟩ := p
        simp only [hE] at h
        cases hrest : runOps d2 rest with
        | none => simp only [hrest] at h; cases h
        | some q =>
          obtain ⟨dF2, n2⟩ := q
          simp only [hrest] at h
          simp only [Option.some.injEq, Prod.mk.injEq] at h
          exact h.1 ▸ ih (Reached.addE d s t d2 e hR hE) hrest

theorem runOps_edges {ops : List (Op V)} :
    ∀ {d dF : Digraph V} {n : Nat},
      runOps d ops = some (dF, n) →
      dF.edgeCount = d.edgeCount + n ∧
      totalEdges dF.adjList = totalEdges d.adjList + n ∧
      dF.edgeCount - d.edgeCount =
        totalEdges dF.adjList - totalEdges d.adjList := by
  induction ops with
  | nil =>
    intro d dF n h
    simp only [runOps, Option.some.injEq, Prod.mk.injEq] at h
    obtain ⟨rfl, rfl⟩ := h
    simp
  | cons op rest ih =>
    intro d dF n h
    cases op with
    | addV v =>
      have h2 := ih h
      rw [AddVertex_edgeCount, AddVertex_totalEdges] at h2
      exact h2
    | addE s t =>
      simp only [runOps] at h
      cases hE : AddEdge d s t with
      | none => simp only [hE] at h; cases h
      | some p =>
        obtain ⟨d2, e⟩ := p
        simp only [hE] at h
        cases hrest : runOps d2 rest with
        | none => simp only [hrest] at h; cases h
        | some q =>
          obtain ⟨dF2, n2⟩ := q
          simp only [hrest] at h
          simp only [Option.some.injEq, Prod.mk.injEq] at h
          obtain ⟨rfl, rfl⟩ := h
          have hc := AddEdge_counts hE
          have h2 := ih hrest
          constructor
          · rw [h2.1, hc.1]
            by_cases he : e = none <;> simp [he] <;> omega
          · constructor
            · rw [h2.2.1, hc.2]
              by_cases he : e = none <;> simp [he] <;> omega
            · rw [h2.1, hc.1, h2.2.1, hc.2]
              omega

theorem runOps_keys {ops : List (Op V)} :
    ∀ {d dF : Digraph V} {n : Nat},
      runOps d ops = some (dF, n) →
      (keysList dF.adjList).toFinset =
        (keysList d.adjList).toFinset ∪ (identsOf ops).toFinset ∧
      (d.vertexCount = (keysList d.adjList).toFinset.card →
        dF.vertexCount = (keysList dF.adjList).toFinset.card) := by
  induction ops with
  | nil =>
    intro d dF n h
    simp only [runOps, Option.some.injEq, Prod.mk.injEq] at h
    obtain ⟨rfl, rfl⟩ := h
    simp [identsOf]
  | cons op rest ih =>
    intro d dF n h
    cases op with
    | addV v =>
      have h2 := ih h
      refine ⟨?_, fun hI => h2.2 (AddVertex_vertexCount_inv hI v)⟩
      rw [h2.1, AddVertex_keysFinset]
      ext x
      simp [identsOf]
    | addE s t =>
      simp only [runOps] at h
      cases hE : AddEdge d s t with
      | none => simp only [hE] at h; cases h
      | some p =>
        obtain ⟨d2, e⟩ := p
        simp only [hE] at h
        cases hrest : runOps d2 rest with
        | none => simp only [hrest] at h; cases h
        | some q =>
          obtain ⟨dF2, n2⟩ := q
          simp only [hrest] at h
          simp only [Option.some.injEq, Prod.mk.injEq] at h
          obtain ⟨rfl, rfl⟩ := h
          have h2 := ih hrest
          have hk := AddEdge_keysFinset hE
          refine ⟨?_, fun hI => h2.2 (AddEdge_vertexCount_inv hI hE)⟩
          rw [h2.1, hk]
          by_cases hst : s = t
          · subst hst
            rw [if_pos rfl]
            simp [identsOf]
          · rw [if_neg hst]
            simp only [identsOf, if_neg hst]
            ext x
            simp
            tauto

/-! Definitions for the discovery-state claim: a variant of the search that
starts from a previously populated discovered set, following the words of
the specification (a package-wide discovery map reused across calls), to be
compared against the per-call allocation the source performs. -/

/-- Discovered set computed by one DepthFirstSearch call (empty when the
search dies); what a package-wide map would retain after the call. -/
def dfsDiscovered (d : Digraph V) (source : V) : List V :=
  match dfsVisit d.adjList (dfsFuel d.adjList source) [] source with
  | .ok disc => disc
  | _ => []

/-- Modelled from the spec, section 9: DepthFirstSearch as it would behave
if the discovered set were package-wide state carried over from earlier
calls (disc0) instead of being allocated fresh inside the call. -/
def DepthFirstSearchShared (disc0 : List V) (d : Digraph V)
    (source target : V) : Option Bool :=
  match dfsVisit d.adjList (dfsFuel d.adjList source) disc0 source with
  | .ok disc => some (decide (target ∈ disc))
  | _ => none

/-! Lock-acquisition traces of the public operations, read off the
Lock/Unlock (and deferred Unlock) call sites in digraph.go.  Cross-thread
interleaving itself is not embedded; the traces record how many separate
critical sections one call enters. -/

/-- A mutex event on the engine-wide lock `d.m`. -/
inductive LockEvent
  | acq
  | rel
deriving DecidableEq, Repr

/-- AddVertex locks on entry and releases on return. -/
def AddVertexTrace : List LockEvent := [.acq, .rel]

/-- HasEdge locks on entry and releases on return. -/
def HasEdgeTrace : List LockEvent := [.acq, .rel]

/-- DepthFirstSearch locks on entry and releases on return. -/
def DepthFirstSearchTrace : List LockEvent := [.acq, .rel]

/-- EdgeCount locks on entry and releases on return. -/
def EdgeCountTrace : List LockEvent := [.acq, .rel]

/-- VertexCount locks on entry and releases on return. -/
def VertexCountTrace : List LockEvent := [.acq, .rel]

/-- Print locks on entry and releases on return. -/
def PrintTrace : List LockEvent := [.acq, .rel]

/-- Lock events of one AddEdge call, in source order: none before the
self-loop check, then one critical section per delegated call (AddVertex
twice, HasEdge, DepthFirstSearch), and a final one around the append. -/
def AddEdgeTrace (d : Digraph V) (s t : V) : List LockEvent :=
  if s = t then []
  else
    AddVertexTrace ++ AddVertexTrace ++ HasEdgeTrace ++
      (if HasEdge (ensureVertices d s t) s t then []
       else DepthFirstSearchTrace ++
         (match DepthFirstSearch (ensureVertices d s t) t s with
          | some false => [.acq, .rel]
          | _ => []))

/-- Parse a trace as a sequence of disjoint acquire-release critical
sections, counting them; fails on nesting or an unreleased acquire. -/
def sectionCount : List LockEvent → Option Nat
  | [] => some 0
  | .acq :: .rel :: rest => (sectionCount rest).map (· + 1)
  | _ => none

/-! Concrete graphs used in the concrete evaluations below. -/

/-- Graph produced by AddEdge on a fresh graph with endpoints 1 and 2:
one edge 1 to 2, two vertices, root 1. -/
def G1 : Digraph Nat := ⟨[(1, [2]), (2, [])], 1, some 1, 2⟩

/-- Same adjacency structure as G1 but different counters and root. -/
def G1b : Digraph Nat := ⟨[(1, [2]), (2, [])], 99, none, 7⟩

/-! The claims. -/

/-- C1: after every sequence of AddVertex/AddEdge calls starting from a
fresh graph (successful or failed), no vertex v has DepthFirstSearch(v, v)
returning true: no vertex is reachable from itself via one or more edges. -/
theorem claim_C1_acyclicity (g : Digraph V) (h : Reached g) (v : V) :
    DepthFirstSearch g v v ≠ some true := by
  obtain ⟨hC, hA⟩ := Reached_invariant h
  cases hs : lookupV g.adjList v with
  | none =>
    rw [(DepthFirstSearch_none v hs).2]
    simp
  | some a =>
    obtain ⟨b, hb, hbiff⟩ := DepthFirstSearch_ok (s := v) hC (by simp [hs]) v
    rw [hb]
    intro hc
    simp only [Option.some.injEq] at hc
    exact hA v (hbiff.mp hc)

/-- Witness for C1 at the reached graph G1 (one successful AddEdge). -/
theorem claim_C1_acyclicity_witness : DepthFirstSearch G1 1 1 ≠ some true :=
  claim_C1_acyclicity G1
    (Reached.addE New 1 2 G1 none Reached.init (by decide)) 1

/-- C2: AddEdge checks in order, on a closed graph: a self loop fails with
Cycle before anything else; an existing edge fails with EdgeExists leaving
the state unchanged; a reachable source fails with Cycle leaving the state
unchanged; otherwise target is appended at the end of the adjacency list of
source and the edge counter grows by exactly one. -/
theorem claim_C2_addEdge_order (d : Digraph V) (s t : V)
    (hC : Closed d.adjList) :
    (s = t → AddEdge d s t = some (d, some .ErrCycle)) ∧
    (s ≠ t → HasEdge d s t = true →
      AddEdge d s t = some (d, some .ErrEdgeExists)) ∧
    (s ≠ t → HasEdge d s t = false →
      DepthFirstSearch (ensureVertices d s t) t s = some true →
      AddEdge d s t = some (d, some .ErrCycle)) ∧
    (s ≠ t → HasEdge d s t = false →
      DepthFirstSearch (ensureVertices d s t) t s = some false →
      ∃ d2, AddEdge d s t = some (d2, none) ∧
        adjOf d2.adjList s = adjOf d.adjList s ++ [t] ∧
        (∀ x, x ≠ s → adjOf d2.adjList x = adjOf d.adjList x) ∧
        d2.edgeCount = d.edgeCount + 1) := by
  refine ⟨?_, ?_, ?_, ?_⟩
  · rintro rfl
    exact AddEdge_self d s
  · intro hst hHE
    exact AddEdge_edgeExists hC hst hHE
  · intro hst hHE hDFS
    exact AddEdge_cycle hC hst hHE hDFS
  · intro hst hHE hDFS
    refine ⟨_, AddEdge_success hst hHE hDFS, ?_, ?_, ?_⟩
    · show adjOf (updateList (ensureVertices d s t).adjList s t) s = _
      rw [adjOf_updateList_self t (by rw [ensureVertices_lookup_s]; simp)]
      rw [ensureVertices_adjOf]
    · intro x hx
      show adjOf (updateList (ensureVertices d s t).adjList s t) x = _
      rw [adjOf_updateList_ne _ t hx, ensureVertices_adjOf]
    · show (ensureVertices d s t).edgeCount + 1 = _
      rw [ensureVertices_edgeCount]

/-- Witness for C2 at the closed graph G1 with source 2 and target 3. -/
theorem claim_C2_addEdge_order_witness :
    ((2 : Nat) = 3 → AddEdge G1 2 3 = some (G1, some .ErrCycle)) ∧
    ((2 : Nat) ≠ 3 → HasEdge G1 2 3 = true →
      AddEdge G1 2 3 = some (G1, some .ErrEdgeExists)) ∧
    ((2 : Nat) ≠ 3 → HasEdge G1 2 3 = false →
      DepthFirstSearch (ensureVertices G1 2 3) 3 2 = some true →
      AddEdge G1 2 3 = some (G1, some .ErrCycle)) ∧
    ((2 : Nat) ≠ 3 → HasEdge G1 2 3 = false →
      DepthFirstSearch (ensureVertices G1 2 3) 3 2 = some false →
      ∃ d2, AddEdge G1 2 3 = some (d2, none) ∧
        adjOf d2.adjList 2 = adjOf G1.adjList 2 ++ [3] ∧
        (∀ x, x ≠ 2 → adjOf d2.adjList x = adjOf G1.adjList x) ∧
        d2.edgeCount = G1.edgeCount + 1) :=
  claim_C2_addEdge_order G1 2 3 (by decide)

/-- C3: on a closed graph with a known source, DepthFirstSearch(source,
target) returns true exactly when a directed path of length at least one
leads from source to target (and it does not die); a path of length zero
does not count, so a vertex is not auto-reachable from itself. -/
theorem claim_C3_dfs_iff_path (d : Digraph V) (s t : V)
    (hC : Closed d.adjList) (hs : (lookupV d.adjList s).isSome) :
    (DepthFirstSearch d s t = some true ↔ PathR d.adjList s t) ∧
    DepthFirstSearch d s t ≠ none := by
  obtain ⟨b, hb, hbiff⟩ := DepthFirstSearch_ok hC hs t
  constructor
  · constructor
    · intro h
      rw [hb] at h
      simp only [Option.some.injEq] at h
      exact hbiff.mp h
    · intro hp
      rw [hb, hbiff.mpr hp]
  · rw [hb]
    simp

/-- Witness for C3 on G1 with source 1 and target 2. -/
theorem claim_C3_dfs_iff_path_witness :
    (DepthFirstSearch G1 1 2 = some true ↔ PathR G1.adjList 1 2) ∧
    DepthFirstSearch G1 1 2 ≠ none :=
  claim_C3_dfs_iff_path G1 1 2 (by decide) (by decide)

/-- Counterexample to C4 as stated: with a == b, AddEdge on a fresh graph
returns Cycle before inserting anything, so vertex 5 is absent afterward. -/
theorem claim_C4_counterexample :
    AddEdge (New : Digraph Nat) 5 5 = some (New, some DigraphError.ErrCycle) ∧
    lookupV (New : Digraph Nat).adjList 5 = none ∧
    VertexCount (New : Digraph Nat) = 0 := by
  decide

/-- C4 amended: for a ≠ b, AddEdge(a, b) on a fresh graph leaves both a and
b present as vertices afterward regardless of the edge outcome. -/
theorem claim_C4_vertices_persist (a b : V) (hab : a ≠ b) :
    ∃ d2 e, AddEdge (New : Digraph V) a b = some (d2, e) ∧
      (lookupV d2.adjList a).isSome ∧ (lookupV d2.adjList b).isSome := by
  have hHE : HasEdge (New : Digraph V) a b = false := rfl
  have hCnew : Closed (New : Digraph V).adjList := by
    intro v hv
    simp [New, allTargets] at hv
  have hCg2 : Closed (ensureVertices (New : Digraph V) a b).adjList :=
    ensureVertices_Closed a b hCnew
  have hlt : (lookupV (ensureVertices (New : Digraph V) a b).adjList b).isSome :=
    ensureVertices_lookup_t New a b
  obtain ⟨c, hc, hciff⟩ := DepthFirstSearch_ok hCg2 hlt a
  have hcfalse : c = false := by
    cases c with
    | false => rfl
    | true =>
      exfalso
      have hp := hciff.mp rfl
      have hmem : ∃ w, w ∈ adjOf (ensureVertices (New : Digraph V) a b).adjList b := by
        cases hp with
        | edge h2 => exact ⟨_, h2⟩
        | cons h2 _ => exact ⟨_, h2⟩
      obtain ⟨w, hw⟩ := hmem
      rw [ensureVertices_adjOf] at hw
      simp [adjOf, New, lookupV] at hw
  subst hcfalse
  refine ⟨_, none, AddEdge_success hab hHE hc, ?_, ?_⟩
  · show (lookupV (updateList (ensureVertices New a b).adjList a b) a).isSome
    exact lookupV_updateList_isSome (by rw [ensureVertices_lookup_s]; simp)
  · show (lookupV (updateList (ensureVertices New a b).adjList a b) b).isSome
    exact lookupV_updateList_isSome hlt

/-- Witness for the amended C4 with endpoints 7 and 8. -/
theorem claim_C4_vertices_persist_witness :
    ∃ d2 e, AddEdge (New : Digraph Nat) 7 8 = some (d2, e) ∧
      (lookupV d2.adjList 7).isSome ∧ (lookupV d2.adjList 8).isSome :=
  claim_C4_vertices_persist 7 8 (by decide)

/-- Counterexample to C5 as stated: the single call AddEdge(5, 5) passes 5
as an endpoint yet creates no vertex, so VertexCount is 0 while the number
of distinct identities ever passed is 1. -/
theorem claim_C5_counterexample :
    runOps (New : Digraph Nat) [Op.addE 5 5] = some (New, 0) ∧
    (identsClaimed [Op.addE (5 : Nat) 5]).dedup.length = 1 ∧
    VertexCount (New : Digraph Nat) ≠
      (identsClaimed [Op.addE (5 : Nat) 5]).dedup.length := by
  decide

/-- C5 amended: VertexCount equals the number of distinct identities passed
to AddVertex or as an endpoint of an AddEdge call whose endpoints differ
(self-loop calls return before inserting their endpoints). -/
theorem claim_C5_vertexCount {ops : List (Op V)} {dF : Digraph V} {n : Nat}
    (h : runOps (New : Digraph V) ops = some (dF, n)) :
    VertexCount dF = (identsOf ops).dedup.length := by
  have hk := runOps_keys h
  have hI : dF.vertexCount = (keysList dF.adjList).toFinset.card :=
    hk.2 (by simp [New, keysList])
  have h1 := hk.1
  rw [show (keysList (New : Digraph V).adjList).toFinset = ∅ by
    simp [New, keysList]] at h1
  rw [Finset.empty_union] at h1
  show dF.vertexCount = _
  rw [hI, h1, List.card_toFinset]

/-- Witness for the amended C5 on a short trace. -/
theorem claim_C5_vertexCount_witness :
    VertexCount (⟨[(1, [2]), (2, []), (4, [])], 1, some 1, 3⟩ : Digraph Nat) =
      (identsOf [Op.addE (1 : Nat) 2, Op.addE 3 3, Op.addV 4]).dedup.length :=
  claim_C5_vertexCount (n := 1) (by decide)

/-- C6: EdgeCount equals the number of AddEdge calls that returned success,
and also equals the total number of entries across all adjacency lists. -/
theorem claim_C6_edgeCount {ops : List (Op V)} {dF : Digraph V} {n : Nat}
    (h : runOps (New : Digraph V) ops = some (dF, n)) :
    EdgeCount dF = n ∧ EdgeCount dF = totalEdges dF.adjList := by
  have he := runOps_edges h
  have h0 : (New : Digraph V).edgeCount = 0 := rfl
  have h1 : totalEdges (New : Digraph V).adjList = 0 := rfl
  constructor
  · show dF.edgeCount = n
    rw [he.1, h0]
    omega
  · show dF.edgeCount = _
    rw [he.1, he.2.1, h0, h1]

/-- Witness for C6 on a short trace with one duplicate and one rejected
cycle. -/
theorem claim_C6_edgeCount_witness :
    EdgeCount (⟨[(1, [2]), (2, [3]), (3, [])], 2, some 1, 3⟩ : Digraph Nat) = 2 ∧
    EdgeCount (⟨[(1, [2]), (2, [3]), (3, [])], 2, some 1, 3⟩ : Digraph Nat) =
      totalEdges (⟨[(1, [2]), (2, [3]), (3, [])], 2, some 1, 3⟩ : Digraph Nat).adjList :=
  claim_C6_edgeCount
    (show runOps (New : Digraph Nat)
        [Op.addE 1 2, Op.addE 2 3, Op.addE 1 2, Op.addE 3 1] =
      some (⟨[(1, [2]), (2, [3]), (3, [])], 2, some 1, 3⟩, 2) by decide)

/-- C7: DepthFirstSearch on an unknown source hits the nil adjacency list
and dereferences it (the nilDeref branch of the embedding); on a closed
graph with a known source the whole traversal completes without any nil
dereference. -/
theorem claim_C7_nil_dereference (d : Digraph V) (s t : V) :
    (lookupV d.adjList s = none →
      dfsVisit d.adjList (dfsFuel d.adjList s) [] s = DfsRes.nilDeref ∧
      DepthFirstSearch d s t = none) ∧
    (Closed d.adjList → (lookupV d.adjList s).isSome →
      ∃ b, DepthFirstSearch d s t = some b) := by
  constructor
  · intro hs
    exact DepthFirstSearch_none t hs
  · intro hC hs
    obtain ⟨b, hb, _⟩ := DepthFirstSearch_ok hC hs t
    exact ⟨b, hb⟩

/-- Witness for C7: source 3 is unknown in G1, source 1 is known. -/
theorem claim_C7_nil_dereference_witness :
    (dfsVisit G1.adjList (dfsFuel G1.adjList 3) [] 3 = DfsRes.nilDeref ∧
      DepthFirstSearch G1 3 2 = none) ∧
    ∃ b, DepthFirstSearch G1 1 2 = some b :=
  ⟨(claim_C7_nil_dereference G1 3 2).1 (by decide),
   (claim_C7_nil_dereference G1 1 2).2 (by decide) (by decide)⟩

/-- C8: Print fails with ErrVertexNotExists exactly when the requested root
is not a known vertex (and succeeds otherwise), and String on an empty
graph (no root recorded) returns the empty string rather than an error. -/
theorem claim_C8_print_errors [ToString V] (d : Digraph V) (root : V)
    (all : Bool) :
    (Print d root all = .error .ErrVertexNotExists ↔
      lookupV d.adjList root = none) ∧
    (lookupV d.adjList root ≠ none → ∃ o, Print d root all = .ok o) ∧
    (d.root = none → Digraph.String d = "") := by
  refine ⟨?_, ?_, ?_⟩
  · unfold Print
    cases hl : lookupV d.adjList root with
    | none => simp
    | some a => simp
  · intro hl
    unfold Print
    rw [if_pos (by cases hl2 : lookupV d.adjList root with
      | none => exact absurd hl2 hl
      | some a => simp)]
    exact ⟨_, rfl⟩
  · intro h
    unfold Digraph.String
    rw [h]

/-- Witness for C8 on the empty graph with an unknown root. -/
theorem claim_C8_print_errors_witness :
    (Print (New : Digraph Nat) 5 false = .error .ErrVertexNotExists ↔
      lookupV (New : Digraph Nat).adjList 5 = none) ∧
    (lookupV (New : Digraph Nat).adjList 5 ≠ none →
      ∃ o, Print (New : Digraph Nat) 5 false = .ok o) ∧
    ((New : Digraph Nat).root = none → Digraph.String (New : Digraph Nat) = "") :=
  claim_C8_print_errors New 5 false

/-- Counterexample to C9 as stated: were the discovered set package-wide
state surviving the call DepthFirstSearch(1, 2) on the graph with edge
1 to 2, a following search from 2 to 2 would answer true; the search the
source performs allocates the set fresh inside the call and answers
false. -/
theorem claim_C9_counterexample :
    DepthFirstSearchShared (dfsDiscovered G1 1) G1 2 2 = some true ∧
    DepthFirstSearch G1 2 2 = some false := by
  decide

/-- C9 amended: the discovered set is allocated fresh inside each
DepthFirstSearch call (the call coincides with the shared-state variant
seeded with the empty set), and the result is a function of the adjacency
structure and the two arguments alone. -/
theorem claim_C9_fresh_discovery (d d2 : Digraph V) (s t : V)
    (h : d.adjList = d2.adjList) :
    DepthFirstSearch d s t = DepthFirstSearchShared [] d s t ∧
    DepthFirstSearch d s t = DepthFirstSearch d2 s t := by
  constructor
  · rfl
  · unfold DepthFirstSearch
    rw [h]

/-- Witness for the amended C9: G1 and G1b share the adjacency structure
but differ in counters and root. -/
theorem claim_C9_fresh_discovery_witness :
    DepthFirstSearch G1 1 2 = DepthFirstSearchShared [] G1 1 2 ∧
    DepthFirstSearch G1 1 2 = DepthFirstSearch G1b 1 2 :=
  claim_C9_fresh_discovery G1 G1b 1 2 (by decide)

/-- Counterexample to C10 as stated: the lock trace of AddEdge(1, 2) on a
fresh graph is not one critical section held for the whole call, and
AddEdge(1, 1) acquires the engine lock not at all. -/
theorem claim_C10_counterexample :
    AddEdgeTrace (New : Digraph Nat) 1 2 ≠ [LockEvent.acq, LockEvent.rel] ∧
    AddEdgeTrace (New : Digraph Nat) 1 1 = [] := by
  decide

/-- C10 amended: AddVertex, HasEdge, DepthFirstSearch, EdgeCount,
VertexCount and Print each run in exactly one engine-wide critical section;
AddEdge instead acquires no lock on the self-loop path and otherwise enters
at least three disjoint critical sections (one per delegated call plus one
for the append), so its check-then-act sequence is not atomic. -/
theorem claim_C10_locking (d : Digraph V) (s t : V) :
    sectionCount AddVertexTrace = some 1 ∧
    sectionCount HasEdgeTrace = some 1 ∧
    sectionCount DepthFirstSearchTrace = some 1 ∧
    sectionCount EdgeCountTrace = some 1 ∧
    sectionCount VertexCountTrace = some 1 ∧
    sectionCount PrintTrace = some 1 ∧
    (s = t → sectionCount (AddEdgeTrace d s t) = some 0) ∧
    (s ≠ t → ∃ k, sectionCount (AddEdgeTrace d s t) = some k ∧ 3 ≤ k) := by
  refine ⟨rfl, rfl, rfl, rfl, rfl, rfl, ?_, ?_⟩
  · intro hst
    rw [AddEdgeTrace, if_pos hst]
    rfl
  · intro hst
    rw [AddEdgeTrace, if_neg hst]
    cases hHE : HasEdge (ensureVertices d s t) s t with
    | true =>
      rw [if_pos rfl]
      exact ⟨3, rfl, by omega⟩
    | false =>
      rw [if_neg (by simp)]
      cases hDFS : DepthFirstSearch (ensureVertices d s t) t s with
      | none => exact ⟨4, rfl, by omega⟩
      | some b =>
        cases b with
        | true => exact ⟨4, rfl, by omega⟩
        | false => exact ⟨5, rfl, by omega⟩

/-- Witness for the amended C10 on a fresh graph with endpoints 1 and 2. -/
theorem claim_C10_locking_witness :
    sectionCount AddVertexTrace = some 1 ∧
    sectionCount HasEdgeTrace = some 1 ∧
    sectionCount DepthFirstSearchTrace = some 1 ∧
    sectionCount EdgeCountTrace = some 1 ∧
    sectionCount VertexCountTrace = some 1 ∧
    sectionCount PrintTrace = some 1 ∧
    ((1 : Nat) = 2 → sectionCount (AddEdgeTrace (New : Digraph Nat) 1 2) = some 0) ∧
    ((1 : Nat) ≠ 2 →
      ∃ k, sectionCount (AddEdgeTrace (New : Digraph Nat) 1 2) = some k ∧ 3 ≤ k) :=
  claim_C10_locking New 1 2

end Godigraph
